import Mathlib

/-!
Verification development for the frame-reconstruction stage of an image
codec (source file `jxl/dec_reconstruct.cc`).  The decoder pieces that the
reconstruction stage calls but whose sources are not part of the package
under verification (the `Rect` constructor of `jxl/image.h`, the loop
filter row driver of `jxl/epf.cc`, the thread-pool wrapper of
`jxl/base/data_parallel.h` and the tile constant of `jxl/common.h`) are
modelled from the design document and are marked as such in their doc
comments.  Pixel samples are modelled as integers, an exact additive
carrier standing in for the C++ floating point samples; all definitions
are executable.
-/

namespace JxlRecon

/-- Block dimension constant (`kBlockDim` of `jxl/common.h`): 8. -/
def kBlockDim : ℕ := 8

/-- Group tiling dimension (`kGroupDim`): 256. -/
def kGroupDim : ℕ := 256

/-- Modelled from the spec: `kApplyImageFeaturesTileDim` lives in
`jxl/common.h`, which is not part of the sources under verification.  The
design document's scenario (one boundary region spanning the full width of
a 300-pixel frame) requires it to be at least the frame width there; we
use 4096. -/
def kApplyImageFeaturesTileDim : ℕ := 4096

/-- Ceiling division, as `DivCeil` in the C++ sources. -/
def divCeil (a b : ℕ) : ℕ := (a + b - 1) / b

/-- Round `w` up to the next multiple of `M`. -/
def padUp (M w : ℕ) : ℕ := M * divCeil w M

/-- Frame dimensions: native sizes; padded sizes and group counts are
derived as in `FrameDimensions` (padded to a block multiple, groups by
ceiling division). -/
structure FrameDim where
  xsize : ℕ
  ysize : ℕ
deriving DecidableEq, Repr

def FrameDim.xsizePadded (fd : FrameDim) : ℕ := kBlockDim * divCeil fd.xsize kBlockDim

def FrameDim.ysizePadded (fd : FrameDim) : ℕ := kBlockDim * divCeil fd.ysize kBlockDim

def FrameDim.xsizeGroups (fd : FrameDim) : ℕ := divCeil fd.xsizePadded kGroupDim

def FrameDim.ysizeGroups (fd : FrameDim) : ℕ := divCeil fd.ysizePadded kGroupDim

/-- Region descriptor: a rectangular sub-window of a parent buffer.  The
stored fields are the resolved offset and size (the parent bounds are used
at construction time only, as in `jxl/image.h`). -/
structure Rect where
  x0 : ℕ
  y0 : ℕ
  xsize : ℕ
  ysize : ℕ
deriving DecidableEq, Repr

/-- Modelled from the spec: the six-argument `Rect` constructor of
`jxl/image.h` (not under the sources being verified).  The design
document's scenario section requires tiles emitted with the fixed tile
width near the frame edge to be cut off at the frame edge, so the
constructor clamps the size to the parent bounds (this is what the C++
`ClampedSize` helper does). -/
def mkRect (x y w h pw ph : ℕ) : Rect :=
  ⟨x, y, min w (pw - x), min h (ph - y)⟩

/-- Modelled from the spec: a construction of a region descriptor that
fails whenever the nominal rectangle exceeds the parent bounds, following
the design document's words for component 4.1 ("fails if the rectangle
would exceed parent bounds").  Used to compare the specified behaviour
with the clamping constructor actually used. -/
def mkRectChecked (x y w h pw ph : ℕ) : Option Rect :=
  if x + w ≤ pw ∧ y + h ≤ ph then some ⟨x, y, w, h⟩ else none

/-- Pixel membership in a region. -/
def Rect.Mem (r : Rect) (X Y : ℕ) : Prop :=
  r.x0 ≤ X ∧ X < r.x0 + r.xsize ∧ r.y0 ≤ Y ∧ Y < r.y0 + r.ysize

instance (r : Rect) (X Y : ℕ) : Decidable (r.Mem X Y) := by
  unfold Rect.Mem; infer_instance

/-- Two regions share no pixel. -/
def Rect.NoOverlap (r q : Rect) : Prop :=
  ∀ X Y : ℕ, ¬(r.Mem X Y ∧ q.Mem X Y)

/-- Arithmetic separation of two regions after inflating their widths up
to the next multiple of `M` (the inflation accounts for the columns a
vector loop of width `M` touches past the nominal width).  `M = 1` is
plain disjointness. -/
def Rect.SepWith (M : ℕ) (r q : Rect) : Prop :=
  r.x0 + padUp M r.xsize ≤ q.x0 ∨ q.x0 + padUp M q.xsize ≤ r.x0 ∨
  r.y0 + r.ysize ≤ q.y0 ∨ q.y0 + q.ysize ≤ r.y0

instance (M : ℕ) (r q : Rect) : Decidable (r.SepWith M q) := by
  unfold Rect.SepWith; infer_instance

/-- Nominal argument tuples passed to the `Rect` constructor by the
scheduler: (x, y, w, h, parent_w, parent_h). -/
abbrev RectCall := ℕ × ℕ × ℕ × ℕ × ℕ × ℕ

def callRect (c : RectCall) : Rect :=
  mkRect c.1 c.2.1 c.2.2.1 c.2.2.2.1 c.2.2.2.2.1 c.2.2.2.2.2

/-- Step 1 of the tiling scheduler in `FinalizeFrameDecoding`: for every
vertical gap between adjacent group rows, wide and short regions spanning
the boundary plus/minus the vertical halo `pady`, tiled horizontally with
the fixed tile width. -/
def hBoundaryCalls (fd : FrameDim) (pady : ℕ) : List RectCall :=
  (List.range (fd.ysizeGroups - 1)).flatMap fun ygroup =>
    let gystart := ygroup * kGroupDim
    let gyend := min fd.ysizePadded (kGroupDim * (ygroup + 1))
    if gyend ≤ gystart + kBlockDim then []
    else
      (List.range (divCeil fd.xsizePadded kApplyImageFeaturesTileDim)).map fun i =>
        (i * kApplyImageFeaturesTileDim, gyend - pady,
         kApplyImageFeaturesTileDim, 2 * pady, fd.xsizePadded, fd.ysizePadded)

/-- Step 2 of the tiling scheduler: for every horizontal gap between
adjacent group columns, tall and narrow regions spanning the boundary
plus/minus the horizontal halo `padx`, with row ranges that skip the rows
already claimed by step 1. -/
def vBoundaryCalls (fd : FrameDim) (padx pady : ℕ) : List RectCall :=
  (List.range (fd.xsizeGroups - 1)).flatMap fun xgroup =>
    let gxstart := if xgroup = 0 then kBlockDim else xgroup * kGroupDim
    let gxend := min fd.xsizePadded (kGroupDim * (xgroup + 1))
    if gxend ≤ gxstart + kBlockDim then []
    else
      (List.range fd.ysizeGroups).flatMap fun ygroup =>
        let gystart := if ygroup = 0 then 0 else ygroup * kGroupDim + pady
        let gyend := if ygroup = fd.ysizeGroups - 1 then fd.ysizePadded
                     else kGroupDim * (ygroup + 1) - pady
        if gyend ≤ gystart then []
        else
          (List.range (divCeil (gyend - gystart) kApplyImageFeaturesTileDim)).map fun j =>
            (gxend - padx, gystart + j * kApplyImageFeaturesTileDim,
             2 * padx, kApplyImageFeaturesTileDim, fd.xsizePadded, gyend)

/-- Step 3 of the tiling scheduler: for a modular-group frame, one region
per coding group tiling the whole output buffer (of sizes `bx × by`) at
group granularity. -/
def modularCalls (bx by_ : ℕ) : List RectCall :=
  (List.range (divCeil by_ kGroupDim)).flatMap fun gy =>
    (List.range (divCeil bx kGroupDim)).map fun gx =>
      (gx * kGroupDim, gy * kGroupDim, kGroupDim, kGroupDim, bx, by_)

/-- All constructor calls issued by the tiling scheduler of
`FinalizeFrameDecoding`, in program order: boundary regions (when a
restoration filter is enabled) first, then the modular-group full tiling
(when the frame is modular-group coded). -/
def scheduleCalls (lfOn modularEnc : Bool) (fd : FrameDim) (padx pady bx by_ : ℕ) :
    List RectCall :=
  (if lfOn then hBoundaryCalls fd pady ++ vBoundaryCalls fd padx pady else []) ++
  (if modularEnc then modularCalls bx by_ else [])

/-- The region descriptors produced by the tiling scheduler. -/
def scheduleRects (lfOn modularEnc : Bool) (fd : FrameDim) (padx pady bx by_ : ℕ) :
    List Rect :=
  (scheduleCalls lfOn modularEnc fd padx pady bx by_).map callRect


/-- A three-plane pixel buffer (`Image3F`): dimensions plus per-plane
sample values. -/
structure Image3 where
  xsize : ℕ
  ysize : ℕ
  val : Fin 3 → ℕ → ℕ → ℤ

/-- Decoder environment: the read-only inputs of the reconstruction stage
(frame header flags, loop filter configuration, image features, and the
two caller flags of `FinalizeFrameDecoding`).  The image features
(patches, splines, noise field, filter output) are carried as functions of
plane and absolute pixel coordinates; the color transforms are carried as
per-pixel functions on plane triples. -/
structure DecEnv where
  epf : Bool
  gab : Bool
  padx : ℕ
  pady : ℕ
  modularEnc : Bool
  colorXYB : Bool
  colorYCbCr : Bool
  noiseOn : Bool
  needsRestoring : Bool
  needsSaving : Bool
  saveDecompressed : Bool
  applyColorTransform : Bool
  allocOk : Bool
  fd : FrameDim
  vecN : ℕ
  filt : Fin 3 → ℕ → ℕ → ℤ
  patchAdd : Fin 3 → ℕ → ℕ → ℤ
  splineAdd : Fin 3 → ℕ → ℕ → ℤ
  noiseVal : Fin 3 → ℕ → ℕ → ℤ
  xyb : (Fin 3 → ℤ) → Fin 3 → ℤ
  ycbcr : (Fin 3 → ℤ) → Fin 3 → ℤ

/-- Whether any restoration filter is enabled (`lf.epf || lf.gab`). -/
def DecEnv.lfOn (env : DecEnv) : Bool := env.epf || env.gab

/-- Mutable state threaded through reconstruction: the pixel buffer being
finalized and the cross-frame reference storage (`frame_storage`), both as
plane-indexed coordinate functions. -/
structure DState where
  buf : Fin 3 → ℕ → ℕ → ℤ
  sto : Fin 3 → ℕ → ℕ → ℤ

/-- Modelled from the spec: `ApplyLoopFiltersRow` of `jxl/epf.cc` (not
under the sources being verified) decides whether input row index `y` of a
region maps to a valid output row.  Per the design document the stage is
deterministic, outputs each region row exactly once as the input rows are
fed in increasing order, and returns nothing for the warm-up rows at the
top; input rows are indexed with an offset of `2 * kBlockDim` and the
output lags the input by the vertical halo. -/
def outputRow (env : DecEnv) (h y : ℕ) : Option ℕ :=
  if 2 * kBlockDim + env.pady ≤ y ∧ y < 2 * kBlockDim + env.pady + h then
    some (y - (2 * kBlockDim + env.pady))
  else none

/-- Number of columns touched by the inline color-transform loop of
`ApplyImageFeaturesRow` for a region of width `w`: the loop steps by the
vector width `vecN` from column 0 while the index is below `w`, and each
step loads and stores full vectors. -/
def ctCols (env : DecEnv) (w : ℕ) : ℕ := padUp env.vecN w

/-- One output row of the per-row feature compositor, operating on the
columns `[x0, x0 + w)` of absolute row `Y`: restoration filter result,
patch and spline compositing, cross-frame restore and save, noise
synthesis, and the inline opsin color transform, in the order of
`ApplyImageFeaturesRow`. -/
def applyRowOut (env : DecEnv) (x0 w Y : ℕ) (s : DState) : DState :=
  let base : Fin 3 → ℕ → ℤ := fun c X =>
    if env.lfOn then env.filt c X Y else s.buf c X Y
  let v2 : Fin 3 → ℕ → ℤ := fun c X =>
    base c X + env.patchAdd c X Y + env.splineAdd c X Y
  let v3 : Fin 3 → ℕ → ℤ := fun c X =>
    v2 c X + (if env.needsRestoring then s.sto c X Y else 0)
  let sto2 : Fin 3 → ℕ → ℕ → ℤ := fun c X Y' =>
    if env.needsSaving ∧ env.saveDecompressed ∧ Y' = Y ∧ x0 ≤ X ∧ X < x0 + w then
      v3 c X
    else s.sto c X Y'
  let v4 : Fin 3 → ℕ → ℤ := fun c X =>
    v3 c X + (if env.noiseOn then env.noiseVal c X Y else 0)
  let buf4 : Fin 3 → ℕ → ℕ → ℤ := fun c X Y' =>
    if Y' = Y ∧ x0 ≤ X ∧ X < x0 + w then v4 c X else s.buf c X Y'
  let buf5 : Fin 3 → ℕ → ℕ → ℤ :=
    if env.applyColorTransform ∧ env.colorXYB then
      fun c X Y' =>
        if Y' = Y ∧ x0 ≤ X ∧ X < x0 + ctCols env w then
          env.xyb (fun c' => buf4 c' X Y') c
        else buf4 c X Y'
    else buf4
  ⟨buf5, sto2⟩

/-- `ApplyImageFeaturesRow`: invoke the restoration filter stage on input
row `y` of region `rect`; if it yields no output row, do nothing else;
otherwise composite the features into the output row. -/
def ApplyImageFeaturesRow (env : DecEnv) (rect : Rect) (y : ℕ) (s : DState) : DState :=
  match outputRow env rect.ysize y with
  | none => s
  | some r => applyRowOut env rect.x0 rect.xsize (rect.y0 + r) s

/-- The input row indices fed to `ApplyImageFeaturesRow` by
`ApplyImageFeatures`: from `2 * kBlockDim - PaddingRows()` up to
`2 * kBlockDim + PaddingRows() + rect.ysize` (exclusive), in increasing
order. -/
def rowIndices (env : DecEnv) (h : ℕ) : List ℕ :=
  (List.range (2 * env.pady + h)).map fun i => 2 * kBlockDim - env.pady + i

/-- `ApplyImageFeatures`: run the per-row compositor over all input rows
of one region, in increasing order. -/
def ApplyImageFeatures (env : DecEnv) (rect : Rect) (s : DState) : DState :=
  (rowIndices env rect.ysize).foldl (fun s' y => ApplyImageFeaturesRow env rect y s') s

/-- Process a list of regions in the given order, each by
`ApplyImageFeatures`. -/
def foldTasks (env : DecEnv) (L : List Rect) (s : DState) : DState :=
  L.foldl (fun s' r => ApplyImageFeatures env r s') s

/-- Modelled from the spec: the work-dispatch abstraction (`RunOnPool` of
`jxl/base/data_parallel.h`, not under the sources being verified) reports
whether the per-thread setup and all tasks succeeded; in
`FinalizeFrameDecoding` the only failure source is allocation of
per-worker scratch storage. -/
def runOnPoolOk (env : DecEnv) : Bool := env.allocOk

/-- `FinalizeFrameDecoding`, with the task execution order made explicit:
`order` is the sequence in which the dispatched region tasks complete
(the scheduler's list itself for a single worker).  Returns the status
value of the C++ function together with the finalized buffer and the
cross-frame reference storage.  Mirrors the source: schedule the regions,
run the tasks (none if scratch allocation failed), shrink the buffer to
the native frame dimensions, and finally apply the whole-image
luma-chroma transform when configured.  The returned status is the
literal `return true` of the source, independent of the dispatch
outcome. -/
def FinalizeWithOrder (env : DecEnv) (idct : Image3)
    (sto0 : Fin 3 → ℕ → ℕ → ℤ) (order : List Rect) :
    Bool × Image3 × (Fin 3 → ℕ → ℕ → ℤ) :=
  let s1 := if runOnPoolOk env then foldTasks env order ⟨idct.val, sto0⟩
            else ⟨idct.val, sto0⟩
  let cropped : Image3 := ⟨env.fd.xsize, env.fd.ysize, s1.buf⟩
  let final : Image3 :=
    if env.applyColorTransform ∧ env.colorYCbCr then
      ⟨cropped.xsize, cropped.ysize, fun c X Y => env.ycbcr (fun c' => cropped.val c' X Y) c⟩
    else cropped
  (true, final, s1.sto)

/-- `FinalizeFrameDecoding` proper: the tasks complete in the scheduler's
order (serial execution). -/
def FinalizeFrameDecoding (env : DecEnv) (idct : Image3)
    (sto0 : Fin 3 → ℕ → ℕ → ℤ) : Bool × Image3 × (Fin 3 → ℕ → ℕ → ℤ) :=
  FinalizeWithOrder env idct sto0
    (scheduleRects env.lfOn env.modularEnc env.fd env.padx env.pady idct.xsize idct.ysize)

/-- The boundary regions of scheduler steps 1 and 2 (as region
descriptors). -/
def beltRects (fd : FrameDim) (padx pady : ℕ) : List Rect :=
  (hBoundaryCalls fd pady ++ vBoundaryCalls fd padx pady).map callRect


/-- The buffer and storage samples of the three planes at one pixel
coordinate. -/
abbrev PointVals := (Fin 3 → ℤ) × (Fin 3 → ℤ)

/-- Read the state at one pixel coordinate. -/
def pointOf (s : DState) (X Y' : ℕ) : PointVals :=
  (fun c => s.buf c X Y', fun c => s.sto c X Y')

/-- Vector-width inflation used for footprints: the inline color
transform touches columns up to the next multiple of the vector width,
every other stage stays within the nominal width. -/
def envM (env : DecEnv) : ℕ :=
  if env.applyColorTransform ∧ env.colorXYB then env.vecN else 1

/-- The pixels a region task may read or write: the region's rows, and
its columns inflated by the vector width when the inline color transform
is active. -/
def fpMem (env : DecEnv) (r : Rect) (X Y : ℕ) : Prop :=
  r.x0 ≤ X ∧ X < r.x0 + padUp (envM env) r.xsize ∧ r.y0 ≤ Y ∧ Y < r.y0 + r.ysize


/-- The action of one output row of the compositor on the samples at one
pixel coordinate `(X, Y')`: every stage of `applyRowOut` reads and writes
only at the column and row it is processing, so the whole row step is a
per-pixel function. -/
def rowPointFn (env : DecEnv) (x0 w Y X Y' : ℕ) (p : PointVals) : PointVals :=
  if Y' = Y then
    let base : Fin 3 → ℤ := fun c => if env.lfOn then env.filt c X Y else p.1 c
    let v2 : Fin 3 → ℤ := fun c => base c + env.patchAdd c X Y + env.splineAdd c X Y
    let v3 : Fin 3 → ℤ := fun c =>
      v2 c + (if env.needsRestoring then p.2 c else 0)
    let sto2 : Fin 3 → ℤ := fun c =>
      if env.needsSaving ∧ env.saveDecompressed ∧ x0 ≤ X ∧ X < x0 + w then v3 c
      else p.2 c
    let v4 : Fin 3 → ℤ := fun c =>
      v3 c + (if env.noiseOn then env.noiseVal c X Y else 0)
    let buf4 : Fin 3 → ℤ := fun c => if x0 ≤ X ∧ X < x0 + w then v4 c else p.1 c
    let buf5 : Fin 3 → ℤ :=
      if env.applyColorTransform ∧ env.colorXYB then
        fun c => if x0 ≤ X ∧ X < x0 + ctCols env w then env.xyb buf4 c else buf4 c
      else buf4
    (buf5, sto2)
  else p


/-- The action of one input row index of `ApplyImageFeaturesRow` at one
pixel coordinate. -/
def rowTaskPointFn (env : DecEnv) (rect : Rect) (y X Y' : ℕ) (p : PointVals) : PointVals :=
  match outputRow env rect.ysize y with
  | none => p
  | some r => rowPointFn env rect.x0 rect.xsize (rect.y0 + r) X Y' p


/-- The action of a whole region task at one pixel coordinate. -/
def taskPointFn (env : DecEnv) (rect : Rect) (X Y' : ℕ) (p : PointVals) : PointVals :=
  (rowIndices env rect.ysize).foldl (fun p' y => rowTaskPointFn env rect y X Y' p') p


section ConcreteData

/-- A default environment with every feature disabled, used as the base
for the concrete instances below. -/
def baseEnv : DecEnv := {
  epf := false, gab := false, padx := 0, pady := 0,
  modularEnc := false, colorXYB := false, colorYCbCr := false,
  noiseOn := false, needsRestoring := false, needsSaving := false,
  saveDecompressed := false, applyColorTransform := false, allocOk := true,
  fd := ⟨0, 0⟩, vecN := 1,
  filt := fun _ _ _ => 0, patchAdd := fun _ _ _ => 0, splineAdd := fun _ _ _ => 0,
  noiseVal := fun _ _ _ => 0, xyb := fun v => v, ycbcr := fun v => v }

/-- The all-zero plane function. -/
def zeroF : Fin 3 → ℕ → ℕ → ℤ := fun _ _ _ => 0

/-- A 300 by 300 frame with the edge-preserving filter enabled and halo
3 in both directions (the scenario of the design document). -/
def env300 : DecEnv := { baseEnv with epf := true, padx := 3, pady := 3, fd := ⟨300, 300⟩ }

/-- The padded 304 by 304 all-zero buffer for the 300 by 300 frame. -/
def img304 : Image3 := ⟨304, 304, zeroF⟩

/-- A 512 by 512 modular-group frame with the edge-preserving filter
enabled. -/
def env512 : DecEnv := { baseEnv with
  epf := true, padx := 3, pady := 3, modularEnc := true, fd := ⟨512, 512⟩ }

/-- A 512 by 8 modular-group frame with the sharpening filter and the
inline color transform enabled, on a 4-lane vector unit: the boundary
region at column 256 overlaps the two coding-group regions, and its
color-transform loop spills into columns 257 and 258. -/
def envRace : DecEnv := { baseEnv with
  gab := true, pady := 1, padx := 1, modularEnc := true,
  colorXYB := true, applyColorTransform := true, vecN := 4,
  fd := ⟨512, 8⟩, xyb := fun v c => v c + 1 }

/-- The 512 by 8 all-zero buffer. -/
def imgRace : Image3 := ⟨512, 8, zeroF⟩

/-- An environment whose scratch allocation fails. -/
def envAllocFail : DecEnv := { baseEnv with allocOk := false, fd := ⟨300, 300⟩ }

/-- An 8 by 8 modular-group frame requesting cross-frame restore with
every claim-listed feature disabled. -/
def envRestore8 : DecEnv := { baseEnv with
  modularEnc := true, needsRestoring := true, fd := ⟨8, 8⟩ }

/-- An environment requesting cross-frame save. -/
def envSave : DecEnv := { baseEnv with needsSaving := true, saveDecompressed := true }

/-- An environment with the sharpening filter enabled (vertical halo
1), used to exhibit a warm-up row. -/
def envWarm : DecEnv := { baseEnv with gab := true, pady := 1 }

/-- An environment with the inline color transform on a 4-lane vector
unit and a recognizable transform. -/
def envCT : DecEnv := { baseEnv with
  colorXYB := true, applyColorTransform := true, vecN := 4,
  xyb := fun v c => v c + 1 }

/-- The all-zero decoder state. -/
def zeroState : DState := ⟨zeroF, zeroF⟩

end ConcreteData


section Arith

theorem padUp_ge (M w : ℕ) (hM : 0 < M) : w ≤ padUp M w := by
  unfold padUp divCeil
  have h1 := Nat.div_add_mod (w + M - 1) M
  have h2 := Nat.mod_lt (w + M - 1) hM
  omega

theorem padUp_lt (M w : ℕ) (hM : 0 < M) : padUp M w < w + M := by
  unfold padUp divCeil
  have h1 := Nat.div_add_mod (w + M - 1) M
  have h2 := Nat.mod_lt (w + M - 1) hM
  omega

theorem padUp_of_dvd (M w : ℕ) (hM : 0 < M) (h : M ∣ w) : padUp M w = w := by
  obtain ⟨k, rfl⟩ := h
  unfold padUp divCeil
  have h1 := Nat.div_add_mod (M * k + M - 1) M
  have h2 := Nat.mod_lt (M * k + M - 1) hM
  have h3 : M * ((M * k + M - 1) / M) ≤ M * k := by
    rcases Nat.lt_or_ge (M * ((M * k + M - 1) / M)) (M * k + 1) with h' | h'
    · omega
    · exfalso
      have h4 : M * k + 1 ≤ M * ((M * k + M - 1) / M) := h'
      have h5 : (M * k + M - 1) / M ≤ k ∨ k + 1 ≤ (M * k + M - 1) / M := by omega
      rcases h5 with h5 | h5
      · have := Nat.mul_le_mul_left M h5; omega
      · have := Nat.mul_le_mul_left M h5
        have h6 : M * (k + 1) = M * k + M := by ring
        omega
  omega

theorem padUp_one (w : ℕ) : padUp 1 w = w := by
  unfold padUp divCeil; omega

end Arith

section SepLemmas

theorem Rect.SepWith.symm {M : ℕ} {r q : Rect} (h : r.SepWith M q) : q.SepWith M r := by
  unfold Rect.SepWith at h ⊢; tauto

theorem Rect.SepWith.of_x_dvd {M : ℕ} {r q : Rect} (hM : 0 < M) (hd : M ∣ r.xsize)
    (h : r.x0 + r.xsize ≤ q.x0) : r.SepWith M q := by
  unfold Rect.SepWith
  rw [padUp_of_dvd M r.xsize hM hd]
  omega

theorem Rect.SepWith.of_x_slack {M : ℕ} {r q : Rect} (hM : 0 < M)
    (h : r.x0 + r.xsize + M ≤ q.x0 + 1) : r.SepWith M q := by
  unfold Rect.SepWith
  have := padUp_lt M r.xsize hM
  omega

theorem Rect.SepWith.of_y {M : ℕ} {r q : Rect} (h : r.y0 + r.ysize ≤ q.y0) :
    r.SepWith M q := by
  unfold Rect.SepWith; omega

theorem Rect.SepWith.noOverlap {M : ℕ} {r q : Rect} (hM : 0 < M) (h : r.SepWith M q) :
    r.NoOverlap q := by
  intro X Y hmem
  obtain ⟨⟨h1, h2, h3, h4⟩, h5, h6, h7, h8⟩ := hmem
  have hr := padUp_ge M r.xsize hM
  have hq := padUp_ge M q.xsize hM
  unfold Rect.SepWith at h
  omega

end SepLemmas

section MemLemmas

theorem mem_ite_nil {α : Type} {p : Prop} [Decidable p] {l : List α} {a : α} :
    a ∈ (if p then ([] : List α) else l) ↔ ¬p ∧ a ∈ l := by
  split <;> simp [*]

theorem mem_hBoundaryCalls {fd : FrameDim} {pady : ℕ} {c : RectCall} :
    c ∈ hBoundaryCalls fd pady ↔
      ∃ g i, g < fd.ysizeGroups - 1 ∧
        i < divCeil fd.xsizePadded kApplyImageFeaturesTileDim ∧
        c = (i * kApplyImageFeaturesTileDim,
             min fd.ysizePadded (kGroupDim * (g + 1)) - pady,
             kApplyImageFeaturesTileDim, 2 * pady, fd.xsizePadded, fd.ysizePadded) := by
  unfold hBoundaryCalls
  simp only [List.mem_flatMap, List.mem_range, mem_ite_nil, List.mem_map]
  constructor
  · rintro ⟨g, hg, _, i, hi, rfl⟩
    exact ⟨g, i, hg, hi, rfl⟩
  · rintro ⟨g, i, hg, hi, rfl⟩
    refine ⟨g, hg, ?_, i, hi, rfl⟩
    have hGy : fd.ysizeGroups = (fd.ysizePadded + 255) / 256 := rfl
    simp only [kGroupDim, kBlockDim]
    omega

theorem mem_vBoundaryCalls {fd : FrameDim} {padx pady : ℕ} {c : RectCall} :
    c ∈ vBoundaryCalls fd padx pady ↔
      ∃ x y j,
        x < fd.xsizeGroups - 1 ∧ y < fd.ysizeGroups ∧
        ((if y = 0 then 0 else y * kGroupDim + pady) <
           (if y = fd.ysizeGroups - 1 then fd.ysizePadded
            else kGroupDim * (y + 1) - pady)) ∧
        j < divCeil ((if y = fd.ysizeGroups - 1 then fd.ysizePadded
                      else kGroupDim * (y + 1) - pady) -
                     (if y = 0 then 0 else y * kGroupDim + pady))
              kApplyImageFeaturesTileDim ∧
        c = (min fd.xsizePadded (kGroupDim * (x + 1)) - padx,
             (if y = 0 then 0 else y * kGroupDim + pady) + j * kApplyImageFeaturesTileDim,
             2 * padx, kApplyImageFeaturesTileDim, fd.xsizePadded,
             (if y = fd.ysizeGroups - 1 then fd.ysizePadded
              else kGroupDim * (y + 1) - pady)) := by
  unfold vBoundaryCalls
  simp only [List.mem_flatMap, List.mem_range, mem_ite_nil, List.mem_map]
  constructor
  · rintro ⟨x, hx, _, y, hy, hcond, j, hj, rfl⟩
    exact ⟨x, y, j, hx, hy, by omega, hj, rfl⟩
  · rintro ⟨x, y, j, hx, hy, hys, hj, rfl⟩
    refine ⟨x, hx, ?_, y, hy, by omega, j, hj, rfl⟩
    have hGx : fd.xsizeGroups = (fd.xsizePadded + 255) / 256 := rfl
    simp only [kGroupDim, kBlockDim]
    split <;> omega

theorem mem_modularCalls {bx by_ : ℕ} {c : RectCall} :
    c ∈ modularCalls bx by_ ↔
      ∃ gx gy, gx < divCeil bx kGroupDim ∧ gy < divCeil by_ kGroupDim ∧
        c = (gx * kGroupDim, gy * kGroupDim, kGroupDim, kGroupDim, bx, by_) := by
  unfold modularCalls
  simp only [List.mem_flatMap, List.mem_range, List.mem_map]
  constructor
  · rintro ⟨gy, hgy, gx, hgx, rfl⟩
    exact ⟨gx, gy, hgx, hgy, rfl⟩
  · rintro ⟨gx, gy, hgx, hgy, rfl⟩
    exact ⟨gy, hgy, gx, hgx, rfl⟩

end MemLemmas

section Geometry

theorem hh_sep (fd : FrameDim) (pady M g i g' i' : ℕ)
    (hM : 0 < M) (hM2 : M ∣ 256) (hpy : pady ≤ 8)
    (hg : g < fd.ysizeGroups - 1) (hi : i < divCeil fd.xsizePadded kApplyImageFeaturesTileDim)
    (hg' : g' < fd.ysizeGroups - 1) (hi' : i' < divCeil fd.xsizePadded kApplyImageFeaturesTileDim)
    (hne : ¬(g = g' ∧ i = i')) :
    (callRect (i * kApplyImageFeaturesTileDim,
        min fd.ysizePadded (kGroupDim * (g + 1)) - pady,
        kApplyImageFeaturesTileDim, 2 * pady, fd.xsizePadded, fd.ysizePadded)).SepWith M
      (callRect (i' * kApplyImageFeaturesTileDim,
        min fd.ysizePadded (kGroupDim * (g' + 1)) - pady,
        kApplyImageFeaturesTileDim, 2 * pady, fd.xsizePadded, fd.ysizePadded)) := by
  have hM4096 : M ∣ 4096 := hM2.trans ⟨16, rfl⟩
  have hGy : fd.ysizeGroups = (fd.ysizePadded + 255) / 256 := rfl
  simp only [callRect, mkRect, kGroupDim, kApplyImageFeaturesTileDim, kBlockDim,
    divCeil] at *
  rcases Nat.lt_trichotomy g g' with hgg | hgg | hgg
  · exact Rect.SepWith.of_y (by dsimp only; omega)
  · subst hgg
    rcases Nat.lt_trichotomy i i' with hii | hii | hii
    · refine Rect.SepWith.of_x_dvd hM ?_ ?_
      · show M ∣ min 4096 (fd.xsizePadded - i * 4096)
        have hw : min 4096 (fd.xsizePadded - i * 4096) = 4096 := by omega
        rw [hw]; exact hM4096
      · show i * 4096 + min 4096 (fd.xsizePadded - i * 4096) ≤ i' * 4096
        omega
    · omega
    · refine (Rect.SepWith.of_x_dvd hM ?_ ?_).symm
      · show M ∣ min 4096 (fd.xsizePadded - i' * 4096)
        have hw : min 4096 (fd.xsizePadded - i' * 4096) = 4096 := by omega
        rw [hw]; exact hM4096
      · show i' * 4096 + min 4096 (fd.xsizePadded - i' * 4096) ≤ i * 4096
        omega
  · exact (Rect.SepWith.of_y (by dsimp only; omega)).symm

theorem vv_sep (fd : FrameDim) (padx pady M x y j x' y' j' : ℕ)
    (hM : 0 < M) (hM3 : M ≤ 128) (hpx : padx ≤ 8) (hpy : pady ≤ 8)
    (hx : x < fd.xsizeGroups - 1) (hy : y < fd.ysizeGroups)
    (hys : (if y = 0 then 0 else y * kGroupDim + pady) <
           (if y = fd.ysizeGroups - 1 then fd.ysizePadded else kGroupDim * (y + 1) - pady))
    (hj : j < divCeil ((if y = fd.ysizeGroups - 1 then fd.ysizePadded
                        else kGroupDim * (y + 1) - pady) -
                       (if y = 0 then 0 else y * kGroupDim + pady)) kApplyImageFeaturesTileDim)
    (hx' : x' < fd.xsizeGroups - 1) (hy' : y' < fd.ysizeGroups)
    (hys' : (if y' = 0 then 0 else y' * kGroupDim + pady) <
            (if y' = fd.ysizeGroups - 1 then fd.ysizePadded else kGroupDim * (y' + 1) - pady))
    (hj' : j' < divCeil ((if y' = fd.ysizeGroups - 1 then fd.ysizePadded
                          else kGroupDim * (y' + 1) - pady) -
                         (if y' = 0 then 0 else y' * kGroupDim + pady)) kApplyImageFeaturesTileDim)
    (hne : ¬(x = x' ∧ y = y' ∧ j = j')) :
    (callRect (min fd.xsizePadded (kGroupDim * (x + 1)) - padx,
        (if y = 0 then 0 else y * kGroupDim + pady) + j * kApplyImageFeaturesTileDim,
        2 * padx, kApplyImageFeaturesTileDim, fd.xsizePadded,
        (if y = fd.ysizeGroups - 1 then fd.ysizePadded
         else kGroupDim * (y + 1) - pady))).SepWith M
      (callRect (min fd.xsizePadded (kGroupDim * (x' + 1)) - padx,
        (if y' = 0 then 0 else y' * kGroupDim + pady) + j' * kApplyImageFeaturesTileDim,
        2 * padx, kApplyImageFeaturesTileDim, fd.xsizePadded,
        (if y' = fd.ysizeGroups - 1 then fd.ysizePadded
         else kGroupDim * (y' + 1) - pady))) := by
  have hGx : fd.xsizeGroups = (fd.xsizePadded + 255) / 256 := rfl
  have hGy : fd.ysizeGroups = (fd.ysizePadded + 255) / 256 := rfl
  simp only [callRect, mkRect, kGroupDim, kApplyImageFeaturesTileDim, kBlockDim,
    divCeil] at *
  rcases Nat.lt_trichotomy x x' with hxx | hxx | hxx
  · exact Rect.SepWith.of_x_slack hM (by dsimp only; omega)
  · subst hxx
    rcases Nat.lt_trichotomy y y' with hyy | hyy | hyy
    · have e1 : (if y = fd.ysizeGroups - 1 then fd.ysizePadded
          else 256 * (y + 1) - pady) = 256 * (y + 1) - pady := if_neg (by omega)
      have e2 : (if y' = 0 then 0 else y' * 256 + pady) = y' * 256 + pady :=
        if_neg (by omega)
      exact Rect.SepWith.of_y (by dsimp only; omega)
    · subst hyy
      rcases Nat.lt_trichotomy j j' with hjj | hjj | hjj
      · exact Rect.SepWith.of_y (by dsimp only; omega)
      · omega
      · exact (Rect.SepWith.of_y (by dsimp only; omega)).symm
    · have e1 : (if y' = fd.ysizeGroups - 1 then fd.ysizePadded
          else 256 * (y' + 1) - pady) = 256 * (y' + 1) - pady := if_neg (by omega)
      have e2 : (if y = 0 then 0 else y * 256 + pady) = y * 256 + pady :=
        if_neg (by omega)
      exact (Rect.SepWith.of_y (by dsimp only; omega)).symm
  · exact (Rect.SepWith.of_x_slack hM (by dsimp only; omega)).symm

theorem hv_sep (fd : FrameDim) (padx pady M g i x y j : ℕ)
    (hM : 0 < M) (hpy : pady ≤ 8)
    (hg : g < fd.ysizeGroups - 1) (hi : i < divCeil fd.xsizePadded kApplyImageFeaturesTileDim)
    (hy : y < fd.ysizeGroups)
    (hys : (if y = 0 then 0 else y * kGroupDim + pady) <
           (if y = fd.ysizeGroups - 1 then fd.ysizePadded else kGroupDim * (y + 1) - pady))
    (hj : j < divCeil ((if y = fd.ysizeGroups - 1 then fd.ysizePadded
                        else kGroupDim * (y + 1) - pady) -
                       (if y = 0 then 0 else y * kGroupDim + pady)) kApplyImageFeaturesTileDim) :
    (callRect (i * kApplyImageFeaturesTileDim,
        min fd.ysizePadded (kGroupDim * (g + 1)) - pady,
        kApplyImageFeaturesTileDim, 2 * pady, fd.xsizePadded, fd.ysizePadded)).SepWith M
      (callRect (min fd.xsizePadded (kGroupDim * (x + 1)) - padx,
        (if y = 0 then 0 else y * kGroupDim + pady) + j * kApplyImageFeaturesTileDim,
        2 * padx, kApplyImageFeaturesTileDim, fd.xsizePadded,
        (if y = fd.ysizeGroups - 1 then fd.ysizePadded
         else kGroupDim * (y + 1) - pady))) := by
  have hGy : fd.ysizeGroups = (fd.ysizePadded + 255) / 256 := rfl
  simp only [callRect, mkRect, kGroupDim, kApplyImageFeaturesTileDim, kBlockDim,
    divCeil] at *
  rcases Nat.lt_or_ge y (g + 1) with hyg | hyg
  · -- the column band lies above the belt of boundary g
    have e1 : (if y = fd.ysizeGroups - 1 then fd.ysizePadded
        else 256 * (y + 1) - pady) = 256 * (y + 1) - pady := if_neg (by omega)
    exact (Rect.SepWith.of_y (by dsimp only; omega)).symm
  · -- the column band lies below the belt of boundary g
    have e2 : (if y = 0 then 0 else y * 256 + pady) = y * 256 + pady :=
      if_neg (by omega)
    exact Rect.SepWith.of_y (by dsimp only; omega)

theorem mm_sep (bx by_ M gx gy gx' gy' : ℕ)
    (hM : 0 < M) (hM2 : M ∣ 256)
    (hgx : gx < divCeil bx kGroupDim) (hgy : gy < divCeil by_ kGroupDim)
    (hgx' : gx' < divCeil bx kGroupDim) (hgy' : gy' < divCeil by_ kGroupDim)
    (hne : ¬(gx = gx' ∧ gy = gy')) :
    (callRect (gx * kGroupDim, gy * kGroupDim, kGroupDim, kGroupDim, bx, by_)).SepWith M
      (callRect (gx' * kGroupDim, gy' * kGroupDim, kGroupDim, kGroupDim, bx, by_)) := by
  simp only [callRect, mkRect, kGroupDim, divCeil] at *
  rcases Nat.lt_trichotomy gy gy' with hyy | hyy | hyy
  · exact Rect.SepWith.of_y (by dsimp only; omega)
  · subst hyy
    rcases Nat.lt_trichotomy gx gx' with hxx | hxx | hxx
    · refine Rect.SepWith.of_x_dvd hM ?_ ?_
      · show M ∣ min 256 (bx - gx * 256)
        have hw : min 256 (bx - gx * 256) = 256 := by omega
        rw [hw]; exact hM2
      · show gx * 256 + min 256 (bx - gx * 256) ≤ gx' * 256
        omega
    · omega
    · refine (Rect.SepWith.of_x_dvd hM ?_ ?_).symm
      · show M ∣ min 256 (bx - gx' * 256)
        have hw : min 256 (bx - gx' * 256) = 256 := by omega
        rw [hw]; exact hM2
      · show gx' * 256 + min 256 (bx - gx' * 256) ≤ gx * 256
        omega
  · exact (Rect.SepWith.of_y (by dsimp only; omega)).symm

/-- Any two distinct boundary regions of scheduler steps 1 and 2 stay
separated even after inflating widths to a multiple of `M`. -/
theorem beltRects_sep (fd : FrameDim) (padx pady M : ℕ)
    (hM : 0 < M) (hM2 : M ∣ 256) (hM3 : M ≤ 128) (hpx : padx ≤ 8) (hpy : pady ≤ 8) :
    ∀ r ∈ beltRects fd padx pady, ∀ q ∈ beltRects fd padx pady,
      r = q ∨ r.SepWith M q := by
  intro r hr q hq
  simp only [beltRects, List.mem_map, List.mem_append] at hr hq
  obtain ⟨cr, hcr, rfl⟩ := hr
  obtain ⟨cq, hcq, rfl⟩ := hq
  rcases hcr with hcr | hcr <;> rcases hcq with hcq | hcq
  · rw [mem_hBoundaryCalls] at hcr hcq
    obtain ⟨g, i, hg, hi, rfl⟩ := hcr
    obtain ⟨g', i', hg', hi', rfl⟩ := hcq
    by_cases hee : g = g' ∧ i = i'
    · obtain ⟨rfl, rfl⟩ := hee
      exact Or.inl rfl
    · exact Or.inr (hh_sep fd pady M g i g' i' hM hM2 hpy hg hi hg' hi' hee)
  · rw [mem_hBoundaryCalls] at hcr
    rw [mem_vBoundaryCalls] at hcq
    obtain ⟨g, i, hg, hi, rfl⟩ := hcr
    obtain ⟨x, y, j, hx, hy, hys, hj, rfl⟩ := hcq
    exact Or.inr (hv_sep fd padx pady M g i x y j hM hpy hg hi hy hys hj)
  · rw [mem_vBoundaryCalls] at hcr
    rw [mem_hBoundaryCalls] at hcq
    obtain ⟨x, y, j, hx, hy, hys, hj, rfl⟩ := hcr
    obtain ⟨g, i, hg, hi, rfl⟩ := hcq
    exact Or.inr (hv_sep fd padx pady M g i x y j hM hpy hg hi hy hys hj).symm
  · rw [mem_vBoundaryCalls] at hcr hcq
    obtain ⟨x, y, j, hx, hy, hys, hj, rfl⟩ := hcr
    obtain ⟨x', y', j', hx', hy', hys', hj', rfl⟩ := hcq
    by_cases hee : x = x' ∧ y = y' ∧ j = j'
    · obtain ⟨rfl, rfl, rfl⟩ := hee
      exact Or.inl rfl
    · exact Or.inr (vv_sep fd padx pady M x y j x' y' j' hM hM3 hpx hpy
        hx hy hys hj hx' hy' hys' hj' hee)

/-- Any two distinct modular-group regions stay separated even after
inflating widths to a multiple of `M`. -/
theorem modularRects_sep (bx by_ M : ℕ) (hM : 0 < M) (hM2 : M ∣ 256) :
    ∀ r ∈ (modularCalls bx by_).map callRect, ∀ q ∈ (modularCalls bx by_).map callRect,
      r = q ∨ r.SepWith M q := by
  intro r hr q hq
  simp only [List.mem_map] at hr hq
  obtain ⟨cr, hcr, rfl⟩ := hr
  obtain ⟨cq, hcq, rfl⟩ := hq
  rw [mem_modularCalls] at hcr hcq
  obtain ⟨gx, gy, hgx, hgy, rfl⟩ := hcr
  obtain ⟨gx', gy', hgx', hgy', rfl⟩ := hcq
  by_cases hee : gx = gx' ∧ gy = gy'
  · obtain ⟨rfl, rfl⟩ := hee
    exact Or.inl rfl
  · exact Or.inr (mm_sep bx by_ M gx gy gx' gy' hM hM2 hgx hgy hgx' hgy' hee)

/-- The modular-group regions cover every pixel of the buffer. -/
theorem modularRects_cover (bx by_ X Y : ℕ) (hX : X < bx) (hY : Y < by_) :
    ∃ r ∈ (modularCalls bx by_).map callRect, r.Mem X Y := by
  refine ⟨callRect (X / 256 * kGroupDim, Y / 256 * kGroupDim, kGroupDim, kGroupDim, bx, by_),
    ?_, ?_⟩
  · simp only [List.mem_map]
    refine ⟨_, ?_, rfl⟩
    rw [mem_modularCalls]
    exact ⟨X / 256, Y / 256, by simp only [divCeil, kGroupDim]; omega,
      by simp only [divCeil, kGroupDim]; omega, rfl⟩
  · simp only [callRect, mkRect, kGroupDim, Rect.Mem]
    omega

end Geometry

section PointSemantics

theorem DState.ext2 {s t : DState} (hb : s.buf = t.buf) (hs : s.sto = t.sto) : s = t := by
  cases s; cases t; cases hb; cases hs; rfl

theorem applyRowOut_point (env : DecEnv) (x0 w Y X Y' : ℕ) (s : DState) :
    pointOf (applyRowOut env x0 w Y s) X Y' =
      rowPointFn env x0 w Y X Y' (pointOf s X Y') := by
  unfold applyRowOut rowPointFn pointOf
  by_cases hY : Y' = Y
  · subst hY
    rw [if_pos rfl]
    refine Prod.ext ?_ ?_ <;> funext c <;> dsimp only
    · split <;> simp only [eq_self_iff_true, true_and]
    · simp only [eq_self_iff_true, true_and]
  · rw [if_neg hY]
    refine Prod.ext ?_ ?_ <;> funext c <;> dsimp only
    · split <;> simp [hY]
    · simp [hY]

theorem ApplyImageFeaturesRow_point (env : DecEnv) (rect : Rect) (y X Y' : ℕ) (s : DState) :
    pointOf (ApplyImageFeaturesRow env rect y s) X Y' =
      rowTaskPointFn env rect y X Y' (pointOf s X Y') := by
  unfold ApplyImageFeaturesRow rowTaskPointFn
  cases outputRow env rect.ysize y with
  | none => rfl
  | some r => exact applyRowOut_point env rect.x0 rect.xsize (rect.y0 + r) X Y' s

theorem ApplyImageFeatures_point (env : DecEnv) (rect : Rect) (X Y' : ℕ) (s : DState) :
    pointOf (ApplyImageFeatures env rect s) X Y' =
      taskPointFn env rect X Y' (pointOf s X Y') := by
  unfold ApplyImageFeatures taskPointFn
  induction rowIndices env rect.ysize generalizing s with
  | nil => rfl
  | cons y ys ih =>
      simp only [List.foldl_cons]
      rw [ih (ApplyImageFeaturesRow env rect y s), ApplyImageFeaturesRow_point]

end PointSemantics

section Frame

theorem envM_pos (env : DecEnv) (hN : 0 < env.vecN) : 0 < envM env := by
  unfold envM; split
  · exact hN
  · exact Nat.one_pos

theorem outputRow_some (env : DecEnv) (h y r : ℕ) (hr : outputRow env h y = some r) :
    r < h := by
  unfold outputRow at hr
  split at hr
  · simp only [Option.some.injEq] at hr
    omega
  · cases hr

theorem rowPointFn_id (env : DecEnv) (x0 w Y X Y' : ℕ) (p : PointVals)
    (hMp : 0 < envM env)
    (h : ¬(Y' = Y ∧ x0 ≤ X ∧ X < x0 + padUp (envM env) w)) :
    rowPointFn env x0 w Y X Y' p = p := by
  unfold rowPointFn
  by_cases hY : Y' = Y
  · subst hY
    rw [if_pos rfl]
    have hw : w ≤ padUp (envM env) w := padUp_ge _ _ hMp
    have hcols : ¬(x0 ≤ X ∧ X < x0 + w) := by omega
    have hct : env.applyColorTransform ∧ env.colorXYB →
        ¬(x0 ≤ X ∧ X < x0 + ctCols env w) := by
      intro hCT
      have : ctCols env w = padUp (envM env) w := by
        unfold ctCols envM
        rw [if_pos hCT]
      omega
    refine Prod.ext ?_ ?_ <;> dsimp only
    · split
      · funext c
        rw [if_neg (hct (by assumption))]
      · funext c
        first
        | rfl
        | rw [if_neg hcols]
    · funext c
      rw [if_neg (by tauto)]
  · rw [if_neg hY]

theorem taskPointFn_id (env : DecEnv) (rect : Rect) (X Y' : ℕ) (p : PointVals)
    (hMp : 0 < envM env) (h : ¬ fpMem env rect X Y') :
    taskPointFn env rect X Y' p = p := by
  unfold taskPointFn
  have hstep : ∀ (p' : PointVals) (y : ℕ),
      rowTaskPointFn env rect y X Y' p' = p' := by
    intro p' y
    unfold rowTaskPointFn
    cases hro : outputRow env rect.ysize y with
    | none => rfl
    | some r =>
        have hrlt := outputRow_some env rect.ysize y r hro
        refine rowPointFn_id env rect.x0 rect.xsize (rect.y0 + r) X Y' p' hMp ?_
        unfold fpMem at h
        omega
  generalize rowIndices env rect.ysize = ys
  induction ys generalizing p with
  | nil => rfl
  | cons y ys ih =>
      simp only [List.foldl_cons]
      rw [hstep p y]
      exact ih p

theorem sep_not_both_fp (env : DecEnv) (r q : Rect) (X Y' : ℕ)
    (hsep : r.SepWith (envM env) q) :
    ¬ fpMem env r X Y' ∨ ¬ fpMem env q X Y' := by
  unfold Rect.SepWith at hsep
  unfold fpMem
  omega

theorem task_comm (env : DecEnv) (r q : Rect) (hN : 0 < env.vecN)
    (hrq : r = q ∨ r.SepWith (envM env) q) (s : DState) :
    ApplyImageFeatures env q (ApplyImageFeatures env r s) =
      ApplyImageFeatures env r (ApplyImageFeatures env q s) := by
  rcases hrq with rfl | hsep
  · rfl
  · refine DState.ext2 ?_ ?_ <;> funext c X Y'
    · have h1 : ∀ t : DState, (ApplyImageFeatures env q (ApplyImageFeatures env r t)).buf c X Y' =
          (taskPointFn env q X Y' (taskPointFn env r X Y' (pointOf t X Y'))).1 c := by
        intro t
        have e1 := ApplyImageFeatures_point env q X Y' (ApplyImageFeatures env r t)
        have e2 := ApplyImageFeatures_point env r X Y' t
        rw [e2] at e1
        exact congrFun (congrArg Prod.fst e1) c
      have h2 : ∀ t : DState, (ApplyImageFeatures env r (ApplyImageFeatures env q t)).buf c X Y' =
          (taskPointFn env r X Y' (taskPointFn env q X Y' (pointOf t X Y'))).1 c := by
        intro t
        have e1 := ApplyImageFeatures_point env r X Y' (ApplyImageFeatures env q t)
        have e2 := ApplyImageFeatures_point env q X Y' t
        rw [e2] at e1
        exact congrFun (congrArg Prod.fst e1) c
      rw [h1 s, h2 s]
      rcases sep_not_both_fp env r q X Y' hsep with hno | hno
      · rw [taskPointFn_id env r X Y' _ (envM_pos env hN) hno,
          taskPointFn_id env r X Y' _ (envM_pos env hN) hno]
      · rw [taskPointFn_id env q X Y' _ (envM_pos env hN) hno,
          taskPointFn_id env q X Y' _ (envM_pos env hN) hno]
    · have h1 : ∀ t : DState, (ApplyImageFeatures env q (ApplyImageFeatures env r t)).sto c X Y' =
          (taskPointFn env q X Y' (taskPointFn env r X Y' (pointOf t X Y'))).2 c := by
        intro t
        have e1 := ApplyImageFeatures_point env q X Y' (ApplyImageFeatures env r t)
        have e2 := ApplyImageFeatures_point env r X Y' t
        rw [e2] at e1
        exact congrFun (congrArg Prod.snd e1) c
      have h2 : ∀ t : DState, (ApplyImageFeatures env r (ApplyImageFeatures env q t)).sto c X Y' =
          (taskPointFn env r X Y' (taskPointFn env q X Y' (pointOf t X Y'))).2 c := by
        intro t
        have e1 := ApplyImageFeatures_point env r X Y' (ApplyImageFeatures env q t)
        have e2 := ApplyImageFeatures_point env q X Y' t
        rw [e2] at e1
        exact congrFun (congrArg Prod.snd e1) c
      rw [h1 s, h2 s]
      rcases sep_not_both_fp env r q X Y' hsep with hno | hno
      · rw [taskPointFn_id env r X Y' _ (envM_pos env hN) hno,
          taskPointFn_id env r X Y' _ (envM_pos env hN) hno]
      · rw [taskPointFn_id env q X Y' _ (envM_pos env hN) hno,
          taskPointFn_id env q X Y' _ (envM_pos env hN) hno]

/-- Order independence of the task fold when all scheduled regions are
pairwise equal-or-separated. -/
theorem foldTasks_perm (env : DecEnv) (hN : 0 < env.vecN) (L L' : List Rect)
    (hp : L.Perm L')
    (hsep : ∀ r ∈ L, ∀ q ∈ L, r = q ∨ r.SepWith (envM env) q) (s : DState) :
    foldTasks env L s = foldTasks env L' s := by
  unfold foldTasks
  exact hp.foldl_eq'
    (fun r hr q hq z => task_comm env r q hN (hsep r hr q hq) z) s

theorem foldl_touch_zero {α β : Type} [DecidableEq β] (f : α → α) (yT : β)
    (step : α → β → α) :
    ∀ (ys : List β), (∀ p y, y ∈ ys → step p y = if y = yT then f p else p) →
      ys.count yT = 0 → ∀ p, ys.foldl step p = p := by
  intro ys
  induction ys with
  | nil => intro _ _ p; rfl
  | cons y ys ih =>
      intro hstep hc p
      rw [List.count_cons] at hc
      simp only [beq_iff_eq] at hc
      by_cases hy : y = yT
      · subst hy
        rw [if_pos rfl] at hc
        omega
      · rw [if_neg hy] at hc
        simp only [Nat.add_zero] at hc
        simp only [List.foldl_cons, hstep p y (by simp), if_neg hy]
        exact ih (fun p' y' hy' => hstep p' y' (by simp [hy'])) hc p

theorem foldl_touch_once {α β : Type} [DecidableEq β] (f : α → α) (yT : β)
    (step : α → β → α) :
    ∀ (ys : List β), (∀ p y, y ∈ ys → step p y = if y = yT then f p else p) →
      ys.count yT = 1 → ∀ p, ys.foldl step p = f p := by
  intro ys
  induction ys with
  | nil => intro _ hc; cases hc
  | cons y ys ih =>
      intro hstep hc p
      rw [List.count_cons] at hc
      simp only [beq_iff_eq] at hc
      by_cases hy : y = yT
      · subst hy
        rw [if_pos rfl] at hc
        simp only [List.foldl_cons, hstep p y (by simp), if_pos rfl]
        exact foldl_touch_zero f y step ys
          (fun p' y' hy' => hstep p' y' (by simp [hy'])) (by omega) (f p)
      · rw [if_neg hy] at hc
        simp only [Nat.add_zero] at hc
        simp only [List.foldl_cons, hstep p y (by simp), if_neg hy]
        exact ih (fun p' y' hy' => hstep p' y' (by simp [hy'])) hc p

/-- Pixel-level characterization of a whole task fold. -/
theorem foldTasks_point (env : DecEnv) (L : List Rect) (X Y' : ℕ) (s : DState) :
    pointOf (foldTasks env L s) X Y' =
      L.foldl (fun p r => taskPointFn env r X Y' p) (pointOf s X Y') := by
  unfold foldTasks
  induction L generalizing s with
  | nil => rfl
  | cons r L ih =>
      simp only [List.foldl_cons]
      rw [ih (ApplyImageFeatures env r s), ApplyImageFeatures_point]

/-- The scheduler's full region list is pairwise equal-or-separated
whenever the frame is not simultaneously restoration-filtered and
modular-group coded. -/
theorem scheduleRects_sep (lfOn modularEnc : Bool) (fd : FrameDim)
    (padx pady bx by_ M : ℕ)
    (hM : 0 < M) (hM2 : M ∣ 256) (hM3 : M ≤ 128) (hpx : padx ≤ 8) (hpy : pady ≤ 8)
    (hnot : ¬(lfOn = true ∧ modularEnc = true)) :
    ∀ r ∈ scheduleRects lfOn modularEnc fd padx pady bx by_,
      ∀ q ∈ scheduleRects lfOn modularEnc fd padx pady bx by_,
        r = q ∨ r.SepWith M q := by
  cases lfOn <;> cases modularEnc
  · intro r hr
    simp [scheduleRects, scheduleCalls] at hr
  · intro r hr q hq
    have he : scheduleRects false true fd padx pady bx by_ =
        (modularCalls bx by_).map callRect := by
      simp [scheduleRects, scheduleCalls]
    rw [he] at hr hq
    exact modularRects_sep bx by_ M hM hM2 r hr q hq
  · intro r hr q hq
    have he : scheduleRects true false fd padx pady bx by_ = beltRects fd padx pady := by
      simp [scheduleRects, scheduleCalls, beltRects]
    rw [he] at hr hq
    exact beltRects_sep fd padx pady M hM hM2 hM3 hpx hpy r hr q hq
  · exact absurd ⟨rfl, rfl⟩ hnot

theorem modularRects_nodup (bx by_ : ℕ) : ((modularCalls bx by_).map callRect).Nodup := by
  refine List.Nodup.map_on ?_ ?_
  · intro c1 h1 c2 h2 he
    rw [mem_modularCalls] at h1 h2
    obtain ⟨gx, gy, hgx, hgy, rfl⟩ := h1
    obtain ⟨gx', gy', hgx', hgy', rfl⟩ := h2
    simp only [callRect, mkRect, kGroupDim, Rect.mk.injEq] at he
    obtain ⟨e1, e2, -, -⟩ := he
    have : gx = gx' := by omega
    have : gy = gy' := by omega
    subst this
    subst ‹gx = gx'›
    rfl
  · unfold modularCalls
    rw [List.nodup_flatMap]
    constructor
    · intro gy _
      refine List.Nodup.map ?_ (List.nodup_range _)
      intro a b he
      simp only [Prod.mk.injEq, kGroupDim] at he
      omega
    · refine List.Pairwise.imp ?_ (List.pairwise_lt_range _)
      intro gy gy' hlt c hc1 hc2
      simp only [List.mem_map, List.mem_range] at hc1 hc2
      obtain ⟨a, ha, rfl⟩ := hc1
      obtain ⟨b, hb, he⟩ := hc2
      simp only [Prod.mk.injEq, kGroupDim] at he
      omega

/-- With restoration filters, patches, splines, restore and noise all
disabled and no inline color transform, one compositor row leaves the
buffer sample unchanged. -/
theorem rowPointFn_fst_id (env : DecEnv) (x0 w Y X Y' : ℕ) (p : PointVals)
    (hlf : env.lfOn = false) (hpatch : env.patchAdd = fun _ _ _ => 0)
    (hspline : env.splineAdd = fun _ _ _ => 0)
    (hres : env.needsRestoring = false) (hnoise : env.noiseOn = false)
    (hct : ¬(env.applyColorTransform = true ∧ env.colorXYB = true)) :
    (rowPointFn env x0 w Y X Y' p).1 = p.1 := by
  unfold rowPointFn
  by_cases hY : Y' = Y
  · rw [if_pos hY]
    dsimp only
    rw [if_neg hct]
    funext c
    split
    · simp [hlf, hpatch, hspline, hres, hnoise]
    · rfl
  · rw [if_neg hY]

theorem taskPointFn_fst_id (env : DecEnv) (rect : Rect) (X Y' : ℕ) (p : PointVals)
    (hlf : env.lfOn = false) (hpatch : env.patchAdd = fun _ _ _ => 0)
    (hspline : env.splineAdd = fun _ _ _ => 0)
    (hres : env.needsRestoring = false) (hnoise : env.noiseOn = false)
    (hct : ¬(env.applyColorTransform = true ∧ env.colorXYB = true)) :
    (taskPointFn env rect X Y' p).1 = p.1 := by
  unfold taskPointFn
  generalize rowIndices env rect.ysize = ys
  induction ys generalizing p with
  | nil => rfl
  | cons y ys ih =>
      simp only [List.foldl_cons]
      rw [ih]
      unfold rowTaskPointFn
      cases outputRow env rect.ysize y with
      | none => rfl
      | some r =>
          exact rowPointFn_fst_id env rect.x0 rect.xsize (rect.y0 + r) X Y' p
            hlf hpatch hspline hres hnoise hct

theorem outputRow_pady0 (env : DecEnv) (h y : ℕ) (hp : env.pady = 0) :
    outputRow env h y = if 16 ≤ y ∧ y < 16 + h then some (y - 16) else none := by
  unfold outputRow
  rw [hp]
  simp [kBlockDim]

theorem rowIndices_pady0 (env : DecEnv) (h : ℕ) (hp : env.pady = 0) :
    rowIndices env h = (List.range h).map (fun i => 16 + i) := by
  unfold rowIndices
  rw [hp]
  simp [kBlockDim]

/-- With only cross-frame restore enabled (no filters, patches, splines,
noise, save, or color transform), a region task adds the reference
storage sample into each buffer sample it owns and leaves the storage
unchanged. -/
theorem taskPointFn_restore (env : DecEnv) (rect : Rect) (X Y' : ℕ) (p : PointVals)
    (hlf : env.lfOn = false) (hpady : env.pady = 0)
    (hpatch : env.patchAdd = fun _ _ _ => 0)
    (hspline : env.splineAdd = fun _ _ _ => 0)
    (hres : env.needsRestoring = true) (hsave : env.needsSaving = false)
    (hnoise : env.noiseOn = false)
    (hct : ¬(env.applyColorTransform = true ∧ env.colorXYB = true))
    (hX1 : rect.x0 ≤ X) (hX2 : X < rect.x0 + rect.xsize)
    (hY1 : rect.y0 ≤ Y') (hY2 : Y' < rect.y0 + rect.ysize) :
    taskPointFn env rect X Y' p = (fun c => p.1 c + p.2 c, p.2) := by
  unfold taskPointFn
  rw [rowIndices_pady0 env rect.ysize hpady]
  refine foldl_touch_once (fun p' : PointVals => (fun c => p'.1 c + p'.2 c, p'.2))
    (16 + (Y' - rect.y0)) _ _ ?_ ?_ p
  · intro p' y hy
    simp only [List.mem_map, List.mem_range] at hy
    obtain ⟨i, hi, rfl⟩ := hy
    unfold rowTaskPointFn
    rw [outputRow_pady0 env rect.ysize _ hpady]
    by_cases hiY : 16 + i = 16 + (Y' - rect.y0)
    · rw [if_pos hiY]
      rw [if_pos (by omega)]
      simp only [Nat.add_sub_cancel_left]
      have hYeq : rect.y0 + i = Y' := by omega
      unfold rowPointFn
      rw [hYeq, if_pos rfl]
      dsimp only
      rw [if_neg hct]
      refine Prod.ext ?_ ?_
      · funext c
        dsimp only
        rw [if_pos ⟨hX1, hX2⟩]
        simp [hlf, hpatch, hspline, hres, hnoise]
      · funext c
        dsimp only
        rw [if_neg (by simp [hsave])]
    · rw [if_neg hiY]
      rw [if_pos (show 16 ≤ 16 + i ∧ 16 + i < 16 + rect.ysize by omega)]
      simp only [Nat.add_sub_cancel_left]
      show rowPointFn env rect.x0 rect.xsize (rect.y0 + i) X Y' p' = p'
      unfold rowPointFn
      rw [if_neg (show ¬ Y' = rect.y0 + i by omega)]
  · refine List.count_eq_one_of_mem ?_ ?_
    · exact List.Nodup.map (fun a b he => by omega) (List.nodup_range _)
    · simp only [List.mem_map, List.mem_range]
      exact ⟨Y' - rect.y0, by omega, rfl⟩

/-- With the identity per-row step, the whole task fold leaves every
buffer sample unchanged. -/
theorem foldTasks_fst_id (env : DecEnv) (L : List Rect) (s : DState)
    (hlf : env.lfOn = false) (hpatch : env.patchAdd = fun _ _ _ => 0)
    (hspline : env.splineAdd = fun _ _ _ => 0)
    (hres : env.needsRestoring = false) (hnoise : env.noiseOn = false)
    (hct : ¬(env.applyColorTransform = true ∧ env.colorXYB = true)) :
    (foldTasks env L s).buf = s.buf := by
  funext c X Y'
  have h := congrFun (congrArg Prod.fst (foldTasks_point env L X Y' s)) c
  have hfold : ∀ (L' : List Rect) (p : PointVals),
      (L'.foldl (fun p' r => taskPointFn env r X Y' p') p).1 = p.1 := by
    intro L'
    induction L' with
    | nil => intro p; rfl
    | cons r L' ih =>
        intro p
        simp only [List.foldl_cons]
        rw [ih]
        exact taskPointFn_fst_id env r X Y' p hlf hpatch hspline hres hnoise hct
  rw [hfold] at h
  exact h

end Frame

section Claims

/-- C2 (code_bug): `FinalizeFrameDecoding` returns `true` unconditionally
(line 210 of the source; the result of `RunOnPool` at line 188 is
discarded), so a failure of the parallel dispatch is never surfaced to
the caller: the first conjunct shows the status is `true` for every
input, the remaining conjuncts exhibit a concrete input whose dispatch
fails (scratch allocation failure) while the call still reports success
and returns the untouched buffer. -/
theorem FinalizeFrameDecoding_status_always_true :
    (∀ (env : DecEnv) (idct : Image3) (sto0 : Fin 3 → ℕ → ℕ → ℤ),
      (FinalizeFrameDecoding env idct sto0).1 = true) ∧
    runOnPoolOk envAllocFail = false ∧
    (FinalizeFrameDecoding envAllocFail img304 zeroF).1 = true := by
  exact ⟨fun env idct sto0 => rfl, rfl, rfl⟩

/-- C4 (counterexample): with a 300 by 300 frame, group size 256 and halo
3, the frame spans two group columns (300 exceeds 256), so the scheduler
emits two vertical boundary regions around column 256 — the claim's "no
vertical boundary region" is false. -/
theorem C4_two_vertical_regions :
    (vBoundaryCalls ⟨300, 300⟩ 3 3).length = 2 := by decide

/-- C4 (amended): for the 300 by 300 scenario the scheduler emits exactly
one horizontal boundary region, spanning rows 253 to 258 around row 256
and the full padded width, and exactly two vertical boundary regions
around column 256 (one above the horizontal belt, one below); the
finalized output dimensions are exactly 300 by 300. -/
theorem C4_scenario :
    (hBoundaryCalls ⟨300, 300⟩ 3).length = 1 ∧
    (hBoundaryCalls ⟨300, 300⟩ 3) = [(0, 253, 4096, 6, 304, 304)] ∧
    callRect (0, 253, 4096, 6, 304, 304) = ⟨0, 253, 304, 6⟩ ∧
    (vBoundaryCalls ⟨300, 300⟩ 3 3).length = 2 ∧
    (vBoundaryCalls ⟨300, 300⟩ 3 3) =
      [(253, 0, 6, 4096, 304, 253), (253, 259, 6, 4096, 304, 304)] ∧
    (FinalizeFrameDecoding env300 img304 zeroF).2.1.xsize = 300 ∧
    (FinalizeFrameDecoding env300 img304 zeroF).2.1.ysize = 300 := by
  refine ⟨by decide, by decide, by decide, by decide, by decide, rfl, rfl⟩

/-- C5 (counterexample): the scheduler passes to the region constructor a
nominal rectangle that exceeds its parent bounds (the fixed tile width
4096 against the 304-pixel padded width of the 300 by 300 scenario), so
under the specified failing construction this call would fail rather
than produce an in-bounds region: the claim's two halves are
incompatible with the emitted calls. -/
theorem C5_nominal_call_exceeds_parent :
    (0, 253, 4096, 6, 304, 304) ∈ scheduleCalls true false ⟨300, 300⟩ 3 3 304 304 ∧
    mkRectChecked 0 253 4096 6 304 304 = none := by
  constructor
  · decide
  · decide

theorem callRect_bounds (c : RectCall) (hx : c.1 ≤ c.2.2.2.2.1)
    (hy : c.2.1 ≤ c.2.2.2.2.2) :
    (callRect c).x0 + (callRect c).xsize ≤ c.2.2.2.2.1 ∧
    (callRect c).y0 + (callRect c).ysize ≤ c.2.2.2.2.2 := by
  obtain ⟨x, y, w, h, pw, ph⟩ := c
  simp only [callRect, mkRect] at *
  omega

theorem scheduleCalls_origin_le (lfOn modularEnc : Bool) (fd : FrameDim)
    (padx pady bx by_ : ℕ) :
    ∀ c ∈ scheduleCalls lfOn modularEnc fd padx pady bx by_,
      c.1 ≤ c.2.2.2.2.1 ∧ c.2.1 ≤ c.2.2.2.2.2 := by
  intro c hc
  unfold scheduleCalls at hc
  rw [List.mem_append] at hc
  rcases hc with hc | hc
  · cases lfOn
    · simp at hc
    · rw [if_pos rfl, List.mem_append] at hc
      rcases hc with hc | hc
      · rw [mem_hBoundaryCalls] at hc
        obtain ⟨g, i, hg, hi, rfl⟩ := hc
        simp only [divCeil, kApplyImageFeaturesTileDim, kGroupDim] at *
        constructor
        · omega
        · omega
      · rw [mem_vBoundaryCalls] at hc
        obtain ⟨x, y, j, hx, hy, hys, hj, rfl⟩ := hc
        simp only [divCeil, kApplyImageFeaturesTileDim, kGroupDim] at *
        constructor
        · omega
        · omega
  · cases modularEnc
    · simp at hc
    · rw [if_pos rfl, mem_modularCalls] at hc
      obtain ⟨gx, gy, hgx, hgy, rfl⟩ := hc
      simp only [divCeil, kGroupDim] at *
      constructor
      · omega
      · omega

/-- C5 (amended): the region constructor clamps the nominal size to the
parent bounds instead of failing (the design document's own scenario
requires the edge tiles to be cut off at the frame edge); consequently
every region descriptor the scheduler constructs lies within its parent
bounds, and the spec-worded checked construction succeeds exactly when
the nominal rectangle already fits. -/
theorem scheduler_rects_within_parent :
    (∀ x y w h pw ph : ℕ, x ≤ pw → y ≤ ph →
      (mkRect x y w h pw ph).x0 + (mkRect x y w h pw ph).xsize ≤ pw ∧
      (mkRect x y w h pw ph).y0 + (mkRect x y w h pw ph).ysize ≤ ph) ∧
    (∀ (lfOn modularEnc : Bool) (fd : FrameDim) (padx pady bx by_ : ℕ),
      ∀ c ∈ scheduleCalls lfOn modularEnc fd padx pady bx by_,
        (callRect c).x0 + (callRect c).xsize ≤ c.2.2.2.2.1 ∧
        (callRect c).y0 + (callRect c).ysize ≤ c.2.2.2.2.2) ∧
    (∀ x y w h pw ph : ℕ,
      (mkRectChecked x y w h pw ph).isSome ↔ x + w ≤ pw ∧ y + h ≤ ph) := by
  refine ⟨?_, ?_, ?_⟩
  · intro x y w h pw ph hx hy
    simp only [mkRect]
    omega
  · intro lfOn modularEnc fd padx pady bx by_ c hc
    have h := scheduleCalls_origin_le lfOn modularEnc fd padx pady bx by_ c hc
    exact callRect_bounds c h.1 h.2
  · intro x y w h pw ph
    unfold mkRectChecked
    split
    · next hcond => simp [hcond]
    · next hcond => simp [hcond]

/-- Witness for the amended C5 statement at the 300 by 300 scenario:
every call the scheduler emits there, e.g. the first horizontal belt
call, stays within its parent after clamped construction. -/
theorem scheduler_rects_within_parent_witness :
    ((0, 253, 4096, 6, 304, 304) ∈ scheduleCalls true false ⟨300, 300⟩ 3 3 304 304) ∧
    (callRect (0, 253, 4096, 6, 304, 304)).x0 +
        (callRect (0, 253, 4096, 6, 304, 304)).xsize ≤ 304 ∧
      (callRect (0, 253, 4096, 6, 304, 304)).y0 +
        (callRect (0, 253, 4096, 6, 304, 304)).ysize ≤ 304 :=
  ⟨by decide,
   scheduler_rects_within_parent.2.1 true false ⟨300, 300⟩ 3 3 304 304
     (0, 253, 4096, 6, 304, 304) (by decide)⟩

/-- C7 (confirmed): when the restoration filter stage yields no output
row for an input row (`ApplyLoopFiltersRow` returns false, e.g. for the
warm-up rows at the top of a region), `ApplyImageFeaturesRow` performs
none of the later steps: the pixel buffer and the reference storage are
returned unchanged. -/
theorem ApplyImageFeaturesRow_skips_on_no_output (env : DecEnv) (rect : Rect)
    (y : ℕ) (s : DState) (h : outputRow env rect.ysize y = none) :
    ApplyImageFeaturesRow env rect y s = s := by
  unfold ApplyImageFeaturesRow
  rw [h]

/-- Witness for C7: with the sharpening filter enabled (halo 1), input
row 16 of an 8-row region is a pure warm-up row and the state is left
untouched. -/
theorem ApplyImageFeaturesRow_skips_witness :
    outputRow envWarm 8 16 = none ∧
    ApplyImageFeaturesRow envWarm ⟨0, 0, 8, 8⟩ 16 zeroState = zeroState :=
  ⟨by decide,
   ApplyImageFeaturesRow_skips_on_no_output envWarm ⟨0, 0, 8, 8⟩ 16 zeroState (by decide)⟩

/-- C6 (confirmed): when cross-frame save is requested and the caller
asked for the decompressed copy to be retained, the row that
`ApplyImageFeaturesRow` copies into the reference storage is the
pre-noise value — the filter output composited with patches, splines and
the cross-frame restore — and it does not depend on the noise field at
all (noise is synthesized only after the copy). -/
theorem save_copies_pre_noise_row (env : DecEnv) (rect : Rect) (y r : ℕ) (s : DState)
    (hro : outputRow env rect.ysize y = some r)
    (hsave : env.needsSaving = true) (hsd : env.saveDecompressed = true)
    (c : Fin 3) (X : ℕ) (hX1 : rect.x0 ≤ X) (hX2 : X < rect.x0 + rect.xsize) :
    (ApplyImageFeaturesRow env rect y s).sto c X (rect.y0 + r) =
      (if env.lfOn then env.filt c X (rect.y0 + r) else s.buf c X (rect.y0 + r)) +
        env.patchAdd c X (rect.y0 + r) + env.splineAdd c X (rect.y0 + r) +
        (if env.needsRestoring then s.sto c X (rect.y0 + r) else 0) ∧
    ∀ noiseVal' : Fin 3 → ℕ → ℕ → ℤ,
      (ApplyImageFeaturesRow { env with noiseVal := noiseVal' } rect y s).sto c X
          (rect.y0 + r) =
        (ApplyImageFeaturesRow env rect y s).sto c X (rect.y0 + r) := by
  constructor
  · unfold ApplyImageFeaturesRow
    rw [hro]
    unfold applyRowOut
    dsimp only
    rw [if_pos ⟨hsave, hsd, rfl, hX1, hX2⟩]
  · intro noiseVal'
    unfold ApplyImageFeaturesRow
    have hro' : outputRow { env with noiseVal := noiseVal' } rect.ysize y = some r := hro
    rw [hro, hro']
    unfold applyRowOut
    dsimp only
    rw [if_pos ⟨hsave, hsd, rfl, hX1, hX2⟩,
      if_pos (show env.needsSaving = true ∧ env.saveDecompressed = true ∧
        rect.y0 + r = rect.y0 + r ∧ rect.x0 ≤ X ∧ X < rect.x0 + rect.xsize from
        ⟨hsave, hsd, rfl, hX1, hX2⟩)]
    rfl

/-- Witness for C6 at a concrete input: an environment requesting save,
a 4 by 4 region at the origin, input row 16 (output row 0), the all-zero
state: the saved sample equals the pre-noise pipeline value. -/
theorem save_copies_pre_noise_row_witness :
    outputRow envSave 4 16 = some 0 ∧
    (ApplyImageFeaturesRow envSave ⟨0, 0, 4, 4⟩ 16 zeroState).sto 0 2 ((0 : ℕ) + 0) =
      (if envSave.lfOn then envSave.filt 0 2 ((0 : ℕ) + 0)
       else zeroState.buf 0 2 ((0 : ℕ) + 0)) +
        envSave.patchAdd 0 2 ((0 : ℕ) + 0) + envSave.splineAdd 0 2 ((0 : ℕ) + 0) +
        (if envSave.needsRestoring then zeroState.sto 0 2 ((0 : ℕ) + 0) else 0) :=
  ⟨by decide,
   (save_copies_pre_noise_row envSave ⟨0, 0, 4, 4⟩ 16 0 zeroState (by decide) rfl rfl
      0 2 (by decide) (by decide)).1⟩

/-- C10 (confirmed): the inline opsin color transform of
`ApplyImageFeaturesRow` walks the row in blocks of the vector width
starting at column 0 while the index is below the region width, loading
and storing full vectors; when the width is not a multiple of the vector
width it therefore also reads and rewrites the padding columns between
the region's width and the next vector-width multiple (their new value
is the transform of whatever the buffer held there), instead of leaving
all columns outside the region unchanged. -/
theorem ct_loop_rewrites_padding_cols (env : DecEnv) (x0 w Y : ℕ) (s : DState)
    (hct : env.applyColorTransform = true ∧ env.colorXYB = true)
    (hN : 0 < env.vecN) (hw : w % env.vecN ≠ 0) :
    w < ctCols env w ∧
    ∀ X, x0 + w ≤ X → X < x0 + ctCols env w →
      ∀ c, (applyRowOut env x0 w Y s).buf c X Y =
        env.xyb (fun c' => s.buf c' X Y) c := by
  constructor
  · have h1 := padUp_ge env.vecN w hN
    rcases Nat.eq_or_lt_of_le h1 with he | hlt
    · exfalso
      apply hw
      rw [← Nat.dvd_iff_mod_eq_zero]
      exact ⟨divCeil w env.vecN, he⟩
    · exact hlt
  · intro X hX1 hX2 c
    simp only [applyRowOut]
    rw [if_pos hct]
    rw [if_pos ⟨rfl, Nat.le_trans (Nat.le_add_right x0 w) hX1, hX2⟩]
    have harg : (fun c' => if Y = Y ∧ x0 ≤ X ∧ X < x0 + w then
        ((if env.lfOn = true then env.filt c' X Y else s.buf c' X Y) +
            env.patchAdd c' X Y + env.splineAdd c' X Y +
          if env.needsRestoring = true then s.sto c' X Y else 0) +
          (if env.noiseOn = true then env.noiseVal c' X Y else 0)
        else s.buf c' X Y) = fun c' => s.buf c' X Y := by
      funext c'
      rw [if_neg (by omega)]
    rw [harg]

/-- Witness for C10: width 6 region, 4-lane vectors: the loop covers
columns 0 to 7, and at padding column 6 the all-zero buffer is rewritten
to the transform of zero. -/
theorem ct_loop_rewrites_padding_cols_witness :
    (envCT.applyColorTransform = true ∧ envCT.colorXYB = true) ∧
    0 < envCT.vecN ∧ 6 % envCT.vecN ≠ 0 ∧
    (6 < ctCols envCT 6 ∧
      ∀ X, 0 + 6 ≤ X → X < 0 + ctCols envCT 6 →
        ∀ c, (applyRowOut envCT 0 6 0 zeroState).buf c X 0 =
          envCT.xyb (fun c' => zeroState.buf c' X 0) c) :=
  ⟨⟨rfl, rfl⟩, by decide, by decide,
   ct_loop_rewrites_padding_cols envCT 0 6 0 zeroState ⟨rfl, rfl⟩ (by decide) (by decide)⟩

/-- C8 (counterexample): the claim's list of disabled features omits the
cross-frame restore step: a modular-group frame with restore requested
and every listed feature disabled starts from an all-zero buffer but
finalizes to the reference storage contents (1), not to the cropped
input (0). -/
theorem identity_path_fails_under_restore :
    (FinalizeFrameDecoding envRestore8 ⟨8, 8, zeroF⟩ (fun _ _ _ => 1)).2.1.val 0 0 0 ≠
      zeroF 0 0 0 := by
  decide

/-- C8 (amended): with all restoration filters, patches, splines, noise
and color transforms disabled, and cross-frame restore not requested,
the buffer produced by `FinalizeFrameDecoding` equals the input buffer
cropped to the frame's native dimensions, value for value (cross-frame
save may still run: it only writes the reference storage). -/
theorem finalize_identity_path (env : DecEnv) (idct : Image3)
    (sto0 : Fin 3 → ℕ → ℕ → ℤ)
    (hlf : env.lfOn = false)
    (hpatch : env.patchAdd = fun _ _ _ => 0)
    (hspline : env.splineAdd = fun _ _ _ => 0)
    (hnoise : env.noiseOn = false) (hres : env.needsRestoring = false)
    (hxyb : ¬(env.applyColorTransform = true ∧ env.colorXYB = true))
    (hycc : ¬(env.applyColorTransform = true ∧ env.colorYCbCr = true)) :
    (FinalizeFrameDecoding env idct sto0).2.1.xsize = env.fd.xsize ∧
    (FinalizeFrameDecoding env idct sto0).2.1.ysize = env.fd.ysize ∧
    ∀ (c : Fin 3) (X Y : ℕ),
      (FinalizeFrameDecoding env idct sto0).2.1.val c X Y = idct.val c X Y := by
  simp only [FinalizeFrameDecoding, FinalizeWithOrder]
  rw [if_neg hycc]
  refine ⟨rfl, rfl, ?_⟩
  intro c X Y
  dsimp only
  split
  · rw [foldTasks_fst_id env _ _ hlf hpatch hspline hres hnoise hxyb]
  · rfl

/-- Witness for the amended C8: an 8 by 8 modular frame with a
recognizable buffer: the finalized value at pixel (3, 5) equals the
input value there. -/
theorem finalize_identity_path_witness :
    (FinalizeFrameDecoding { baseEnv with modularEnc := true, fd := ⟨8, 8⟩ }
        ⟨8, 8, fun c X Y => (X : ℤ) + 7 * (Y : ℤ) + (c : ℤ)⟩ zeroF).2.1.val 0 3 5 =
      (fun (c : Fin 3) (X Y : ℕ) => (X : ℤ) + 7 * (Y : ℤ) + (c : ℤ)) 0 3 5 :=
  (finalize_identity_path { baseEnv with modularEnc := true, fd := ⟨8, 8⟩ }
    ⟨8, 8, fun c X Y => (X : ℤ) + 7 * (Y : ℤ) + (c : ℤ)⟩ zeroF
    rfl rfl rfl rfl rfl (by decide) (by decide)).2.2 0 3 5

/-- C1 (counterexample): for a 512 by 512 modular-group frame with the
edge-preserving filter enabled (halo 3), the scheduler emits both the
horizontal boundary belt at rows 253 to 258 and the full per-group
tiling: the group region at the origin and the belt are distinct
scheduled regions that both contain pixel (0, 253), so the region list
is neither pairwise disjoint nor an exactly-once cover, and the
per-group regions do overlap the boundary regions. -/
theorem scheduler_overlap_modular_with_filters :
    (mkRect 0 253 4096 6 512 512) ∈
        scheduleRects env512.lfOn env512.modularEnc env512.fd env512.padx env512.pady 512 512 ∧
    (mkRect 0 0 256 256 512 512) ∈
        scheduleRects env512.lfOn env512.modularEnc env512.fd env512.padx env512.pady 512 512 ∧
    mkRect 0 253 4096 6 512 512 ≠ mkRect 0 0 256 256 512 512 ∧
    (mkRect 0 253 4096 6 512 512).Mem 0 253 ∧
    (mkRect 0 0 256 256 512 512).Mem 0 253 := by
  refine ⟨by decide, by decide, by decide, by decide, by decide⟩

/-- C1 (amended): the boundary regions of scheduler steps 1 and 2 are
pairwise disjoint among themselves at every configuration with halos at
most one block; and for a modular-group frame with restoration filters
disabled, the scheduled regions are pairwise disjoint and cover every
pixel of the output buffer — each output pixel is then written by
exactly one region.  (When filters are active in a modular-group frame
the per-group regions overlap the boundary belts, see the
counterexample.) -/
theorem scheduler_cover_and_disjoint (fd : FrameDim) (padx pady bx by_ : ℕ)
    (hpx : padx ≤ 8) (hpy : pady ≤ 8) :
    (∀ r ∈ beltRects fd padx pady, ∀ q ∈ beltRects fd padx pady,
        r = q ∨ r.NoOverlap q) ∧
    (∀ r ∈ scheduleRects false true fd padx pady bx by_,
        ∀ q ∈ scheduleRects false true fd padx pady bx by_,
          r = q ∨ r.NoOverlap q) ∧
    (∀ X, X < bx → ∀ Y, Y < by_ →
        ∃ r ∈ scheduleRects false true fd padx pady bx by_, r.Mem X Y) := by
  have hmod : scheduleRects false true fd padx pady bx by_ =
      (modularCalls bx by_).map callRect := by
    simp [scheduleRects, scheduleCalls]
  refine ⟨?_, ?_, ?_⟩
  · intro r hr q hq
    rcases beltRects_sep fd padx pady 1 Nat.one_pos (one_dvd _) (by omega) hpx hpy
        r hr q hq with he | hs
    · exact Or.inl he
    · exact Or.inr (hs.noOverlap Nat.one_pos)
  · rw [hmod]
    intro r hr q hq
    rcases modularRects_sep bx by_ 1 Nat.one_pos (one_dvd _) r hr q hq with he | hs
    · exact Or.inl he
    · exact Or.inr (hs.noOverlap Nat.one_pos)
  · intro X hX Y hY
    rw [hmod]
    exact modularRects_cover bx by_ X Y hX hY

/-- Witness for the amended C1 at the 304 by 304 padded modular frame:
pixel (260, 100) is covered by a scheduled region. -/
theorem scheduler_cover_and_disjoint_witness :
    (3 ≤ 8) ∧ (∃ r ∈ scheduleRects false true ⟨300, 300⟩ 3 3 304 304, r.Mem 260 100) :=
  ⟨by decide,
   (scheduler_cover_and_disjoint ⟨300, 300⟩ 3 3 304 304 (by decide) (by decide)).2.2
     260 (by decide) 100 (by decide)⟩

/-- C3 (counterexample): for a modular-group frame with a restoration
filter and the inline color transform active, the scheduled regions
overlap (see the C1 counterexample) and the color-transform loop of the
boundary region spills into the neighbouring group region's columns, so
two completion orders of the same task list — the scheduler's order
(single worker) and its reverse (a possible multi-worker completion
order) — finalize different pixel values at column 257: the output does
depend on task interleaving. -/
theorem finalize_order_dependent :
    (scheduleRects envRace.lfOn envRace.modularEnc envRace.fd envRace.padx envRace.pady
        512 8).reverse.Perm
      (scheduleRects envRace.lfOn envRace.modularEnc envRace.fd envRace.padx envRace.pady
        512 8) ∧
    (FinalizeWithOrder envRace imgRace zeroF
        (scheduleRects envRace.lfOn envRace.modularEnc envRace.fd envRace.padx envRace.pady
          512 8).reverse).2.1.val 0 257 0 ≠
      (FinalizeFrameDecoding envRace imgRace zeroF).2.1.val 0 257 0 := by
  constructor
  · decide
  · decide

/-- C3 (amended): whenever the frame is not simultaneously
restoration-filtered and modular-group coded — precisely the
configurations in which the scheduler's regions are pairwise disjoint,
vector-width spill included — `FinalizeFrameDecoding` produces an output
state independent of the order in which the dispatched region tasks
complete: any permutation of the task list (any worker count and
interleaving, tasks being atomic) yields the identical final buffer,
reference storage and status. -/
theorem finalize_order_independent (env : DecEnv) (idct : Image3)
    (sto0 : Fin 3 → ℕ → ℕ → ℤ) (order : List Rect)
    (hN : 0 < env.vecN) (hN2 : env.vecN ∣ 256) (hN3 : env.vecN ≤ 128)
    (hpx : env.padx ≤ 8) (hpy : env.pady ≤ 8)
    (hnot : ¬(env.lfOn = true ∧ env.modularEnc = true))
    (hperm : order.Perm (scheduleRects env.lfOn env.modularEnc env.fd env.padx
      env.pady idct.xsize idct.ysize)) :
    FinalizeWithOrder env idct sto0 order = FinalizeFrameDecoding env idct sto0 := by
  have hMp : 0 < envM env := envM_pos env hN
  have hM2 : envM env ∣ 256 := by
    unfold envM
    split
    · exact hN2
    · exact one_dvd _
  have hM3 : envM env ≤ 128 := by
    unfold envM
    split
    · exact hN3
    · omega
  have hsep0 := scheduleRects_sep env.lfOn env.modularEnc env.fd env.padx env.pady
    idct.xsize idct.ysize (envM env) hMp hM2 hM3 hpx hpy hnot
  have hsep : ∀ r ∈ order, ∀ q ∈ order, r = q ∨ r.SepWith (envM env) q := by
    intro r hr q hq
    exact hsep0 r (hperm.mem_iff.mp hr) q (hperm.mem_iff.mp hq)
  have hfold := foldTasks_perm env hN order _ hperm hsep ⟨idct.val, sto0⟩
  unfold FinalizeFrameDecoding FinalizeWithOrder
  rw [hfold]

/-- Witness for the amended C3: the 300 by 300 filtered non-modular
frame; completing its three boundary-region tasks in reverse order
finalizes the identical result. -/
theorem finalize_order_independent_witness :
    (0 < env300.vecN) ∧
    FinalizeWithOrder env300 img304 zeroF
        (scheduleRects env300.lfOn env300.modularEnc env300.fd env300.padx env300.pady
          img304.xsize img304.ysize).reverse =
      FinalizeFrameDecoding env300 img304 zeroF :=
  ⟨by decide,
   finalize_order_independent env300 img304 zeroF _ (by decide) (by decide) (by decide)
     (by decide) (by decide) (by decide) (by decide)⟩

/-- C9 (confirmed): saving a frame's buffer into the reference storage
and then finalizing a second, all-zero modular-group frame with restore
requested and save disabled (and no filters, patches, splines, noise or
color transform) reproduces the stored frame exactly on the native frame
area: the restore step adds the stored row's samples into the output row
for each plane, and the zero buffer contributes nothing. -/
theorem restore_roundtrip (env : DecEnv) (idct : Image3)
    (sigma : Fin 3 → ℕ → ℕ → ℤ)
    (hmod : env.modularEnc = true) (hlf : env.lfOn = false) (hpady : env.pady = 0)
    (hpatch : env.patchAdd = fun _ _ _ => 0)
    (hspline : env.splineAdd = fun _ _ _ => 0)
    (hres : env.needsRestoring = true) (hsave : env.needsSaving = false)
    (hnoise : env.noiseOn = false)
    (hxyb : ¬(env.applyColorTransform = true ∧ env.colorXYB = true))
    (hycc : ¬(env.applyColorTransform = true ∧ env.colorYCbCr = true))
    (halloc : env.allocOk = true)
    (hzero : idct.val = zeroF)
    (hbx : env.fd.xsize ≤ idct.xsize) (hby : env.fd.ysize ≤ idct.ysize) :
    ∀ (c : Fin 3) (X Y : ℕ), X < env.fd.xsize → Y < env.fd.ysize →
      (FinalizeFrameDecoding env idct sigma).2.1.val c X Y = sigma c X Y := by
  intro c X Y hX hY
  have hM1 : envM env = 1 := by
    unfold envM
    rw [if_neg hxyb]
  have hMp : 0 < envM env := by
    rw [hM1]
    exact Nat.one_pos
  have hXb : X < idct.xsize := lt_of_lt_of_le hX hbx
  have hYb : Y < idct.ysize := lt_of_lt_of_le hY hby
  simp only [FinalizeFrameDecoding, FinalizeWithOrder]
  rw [if_neg hycc]
  dsimp only
  rw [show runOnPoolOk env = true from halloc, if_pos rfl]
  have hsched : scheduleRects env.lfOn env.modularEnc env.fd env.padx env.pady
      idct.xsize idct.ysize = (modularCalls idct.xsize idct.ysize).map callRect := by
    rw [hlf, hmod]
    simp [scheduleRects, scheduleCalls]
  rw [hsched]
  have hpt := congrFun (congrArg Prod.fst
    (foldTasks_point env ((modularCalls idct.xsize idct.ysize).map callRect) X Y
      ⟨idct.val, sigma⟩)) c
  refine Eq.trans hpt ?_
  set owner := callRect (X / 256 * kGroupDim, Y / 256 * kGroupDim, kGroupDim,
    kGroupDim, idct.xsize, idct.ysize) with howner
  have howner_mem : owner ∈ (modularCalls idct.xsize idct.ysize).map callRect := by
    rw [List.mem_map]
    refine ⟨_, ?_, rfl⟩
    rw [mem_modularCalls]
    exact ⟨X / 256, Y / 256, by simp only [divCeil, kGroupDim]; omega,
      by simp only [divCeil, kGroupDim]; omega, rfl⟩
  have hO : owner.x0 ≤ X ∧ X < owner.x0 + owner.xsize ∧
      owner.y0 ≤ Y ∧ Y < owner.y0 + owner.ysize := by
    rw [howner]
    simp only [callRect, mkRect, kGroupDim]
    refine ⟨by omega, by omega, by omega, by omega⟩
  have hstep : ∀ (p : PointVals) (r : Rect),
      r ∈ (modularCalls idct.xsize idct.ysize).map callRect →
      taskPointFn env r X Y p =
        if r = owner then
          ((fun p' : PointVals => (fun c' => p'.1 c' + p'.2 c', p'.2)) p)
        else p := by
    intro p r hr
    by_cases hro : r = owner
    · subst hro
      rw [if_pos rfl]
      exact taskPointFn_restore env owner X Y p hlf hpady hpatch hspline hres hsave
        hnoise hxyb hO.1 hO.2.1 hO.2.2.1 hO.2.2.2
    · rw [if_neg hro]
      rcases modularRects_sep idct.xsize idct.ysize 1 Nat.one_pos (one_dvd _)
          r hr owner howner_mem with he | hsep
      · exact absurd he hro
      · refine taskPointFn_id env r X Y p hMp ?_
        rw [← hM1] at hsep
        rcases sep_not_both_fp env r owner X Y hsep with hno | hno
        · exact hno
        · exfalso
          apply hno
          unfold fpMem
          rw [hM1, padUp_one]
          exact ⟨hO.1, hO.2.1, hO.2.2.1, hO.2.2.2⟩
  have hcount : ((modularCalls idct.xsize idct.ysize).map callRect).count owner = 1 :=
    List.count_eq_one_of_mem (modularRects_nodup _ _) howner_mem
  have hfold := foldl_touch_once
    (fun p' : PointVals => (fun c' => p'.1 c' + p'.2 c', p'.2)) owner
    (fun p r => taskPointFn env r X Y p)
    ((modularCalls idct.xsize idct.ysize).map callRect) hstep hcount
    (pointOf ⟨idct.val, sigma⟩ X Y)
  rw [hfold]
  show idct.val c X Y + sigma c X Y = sigma c X Y
  rw [congrFun (congrFun (congrFun hzero c) X) Y]
  exact zero_add _

/-- Witness for C9: the 8 by 8 modular restore frame, all-zero input,
storage holding the value X + 1 at each column: the finalized pixel
(2, 3) reads back the stored value. -/
theorem restore_roundtrip_witness :
    (FinalizeFrameDecoding envRestore8 ⟨8, 8, zeroF⟩
        (fun _ X _ => (X : ℤ) + 1)).2.1.val 0 2 3 = ((2 : ℕ) : ℤ) + 1 :=
  restore_roundtrip envRestore8 ⟨8, 8, zeroF⟩ (fun _ X _ => (X : ℤ) + 1)
    rfl rfl rfl rfl rfl rfl rfl rfl (by decide) (by decide) rfl rfl
    (by decide) (by decide) 0 2 3 (by decide) (by decide)

end Claims

end JxlRecon
